import Mathlib

/-!
Verification development for the evolving-workflows notebook and the
futures-engine specification it exercises.

The notebook (src/applications/evolving-workflows.ipynb) contains three
driver variants (as_completed, async/await, secede/rejoin) over two user
functions, parse_file and process_item.  The engine they run on (handle
registry, priority task queue, worker pool with secede/rejoin, completion
multiplexer, gather) is not part of the repository source; those components
are modelled here from the specification text, component by component, and
the notebook's driver code is embedded directly.

Numeric work items are modelled as integers (the notebook's floats carry no
arithmetic beyond x + 1).
-/

namespace EvolvingWorkflows

/-! ## Worker pool slot accounting (Reentrancy Controller, spec section 4.5)

Modelled from the spec: the engine's worker pool and its secede/rejoin slot
accounting are not in the repository source.  The pool has N fixed slots; a
shared counter of active (non-seceded) slots is incremented on task start and
rejoin, decremented on secede and task end; the pool admits an active task
only while the counter is below N; secede stops the calling slot counting
toward the concurrency limit, so a replacement task can be admitted. -/

structure PoolState where
  active : Nat
  seceded : Nat
  deriving DecidableEq, Repr

inductive PoolEvent where
  | start
  | secede
  | rejoin
  | finish
  deriving DecidableEq, Repr

/-- One slot-accounting transition.  `start` admits a new active task only
while fewer than N slots are active; `secede` moves an active slot to the
seceded state; `rejoin` waits for a free active slot and reclaims it;
`finish` releases an active slot.  Disabled events yield `none`. -/
def poolStep (N : Nat) (s : PoolState) : PoolEvent → Option PoolState
  | .start => if s.active < N then some ⟨s.active + 1, s.seceded⟩ else none
  | .secede => if 0 < s.active then some ⟨s.active - 1, s.seceded + 1⟩ else none
  | .rejoin =>
      if 0 < s.seceded ∧ s.active < N then some ⟨s.active + 1, s.seceded - 1⟩ else none
  | .finish => if 0 < s.active then some ⟨s.active - 1, s.seceded⟩ else none

/-- Run a sequence of slot-accounting events; `none` if any event fires while
disabled. -/
def poolRun (N : Nat) : List PoolEvent → PoolState → Option PoolState
  | [], s => some s
  | e :: rest, s =>
      match poolStep N s e with
      | none => none
      | some s' => poolRun N rest s'

/-- The initial pool: no slot busy. -/
def poolInit : PoolState := ⟨0, 0⟩

/-- Event trace of the N = 1 reentrancy scenario: one task starts, secedes,
its M sub-tasks each run to completion, then it rejoins and finishes. -/
def nestedTrace (M : Nat) : List PoolEvent :=
  [.start, .secede] ++ (List.replicate M [PoolEvent.start, PoolEvent.finish]).flatten
    ++ [.rejoin, .finish]

theorem poolStep_active_le (N : Nat) (s s' : PoolState) (e : PoolEvent)
    (hs : s.active ≤ N) (h : poolStep N s e = some s') : s'.active ≤ N := by
  cases e with
  | start =>
      simp only [poolStep] at h
      split at h
      case isTrue hc => cases Option.some.inj h; exact hc
      case isFalse => cases h
  | secede =>
      simp only [poolStep] at h
      split at h
      case isTrue hc => cases Option.some.inj h; exact Nat.le_trans (Nat.sub_le _ _) hs
      case isFalse => cases h
  | rejoin =>
      simp only [poolStep] at h
      split at h
      case isTrue hc => cases Option.some.inj h; exact hc.2
      case isFalse => cases h
  | finish =>
      simp only [poolStep] at h
      split at h
      case isTrue hc => cases Option.some.inj h; exact Nat.le_trans (Nat.sub_le _ _) hs
      case isFalse => cases h

theorem poolRun_active_le (N : Nat) (evs : List PoolEvent) (s s' : PoolState)
    (hs : s.active ≤ N) (h : poolRun N evs s = some s') : s'.active ≤ N := by
  induction evs generalizing s with
  | nil =>
      simp only [poolRun, Option.some.injEq] at h
      subst h
      exact hs
  | cons e rest ih =>
      simp only [poolRun] at h
      cases he : poolStep N s e with
      | none => rw [he] at h; exact absurd h (by simp)
      | some s₁ =>
          rw [he] at h
          exact ih s₁ (poolStep_active_le N s s₁ e hs he) h

theorem poolRun_append (N : Nat) (a b : List PoolEvent) (s : PoolState) :
    poolRun N (a ++ b) s = (poolRun N a s).bind (fun s₁ => poolRun N b s₁) := by
  induction a generalizing s with
  | nil => simp [poolRun]
  | cons e rest ih =>
      simp only [List.cons_append, poolRun]
      cases poolStep N s e <;> simp [ih]

theorem poolRun_subtasks (M : Nat) :
    poolRun 1 (List.replicate M [PoolEvent.start, PoolEvent.finish]).flatten
      ⟨0, 1⟩ = some ⟨0, 1⟩ := by
  induction M with
  | zero => simp [poolRun]
  | succ m ih =>
      simp only [List.replicate_succ, List.flatten_cons]
      rw [show [PoolEvent.start, PoolEvent.finish] ++
            (List.replicate m [PoolEvent.start, PoolEvent.finish]).flatten =
          PoolEvent.start :: PoolEvent.finish ::
            (List.replicate m [PoolEvent.start, PoolEvent.finish]).flatten from rfl]
      simp only [poolRun, poolStep]
      norm_num
      exact ih

/-- C1: at every instant (every state reachable by a trace of accepted pool
events) the active-slot count is at most N; and for N = 1 the full
secede / M sub-tasks / rejoin scenario runs to completion for every M. -/
theorem active_slots_bounded :
    (∀ (N : Nat) (evs : List PoolEvent) (s : PoolState),
        poolRun N evs poolInit = some s → s.active ≤ N) ∧
    (∀ M : Nat, poolRun 1 (nestedTrace M) poolInit = some poolInit) := by
  constructor
  · intro N evs s h
    exact poolRun_active_le N evs poolInit s (Nat.zero_le N) h
  · intro M
    show poolRun 1 ([PoolEvent.start, PoolEvent.secede] ++
      ((List.replicate M [PoolEvent.start, PoolEvent.finish]).flatten ++
        [PoolEvent.rejoin, PoolEvent.finish])) poolInit = some poolInit
    rw [poolRun_append]
    have h1 : poolRun 1 [PoolEvent.start, PoolEvent.secede] poolInit =
        some ⟨0, 1⟩ := by simp [poolRun, poolStep, poolInit]
    rw [h1, Option.some_bind, poolRun_append, poolRun_subtasks, Option.some_bind]
    simp [poolRun, poolStep, poolInit]

/-- Witness for C1 at a concrete trace and at M = 3. -/
theorem active_slots_bounded_witness :
    (PoolState.mk 1 1).active ≤ 2 ∧
      poolRun 1 (nestedTrace 3) poolInit = some poolInit :=
  ⟨active_slots_bounded.1 2 [.start, .start, .secede] ⟨1, 1⟩ (by decide),
   active_slots_bounded.2 3⟩

/-- C2 as stated is false: with N = 1, two tasks can start and secede in
turn (trace start, secede, start, secede), reaching a state with 0 active
and 2 seceded slots, so active + seceded = 2 > N = 1. -/
theorem active_plus_seceded_not_bounded :
    ¬ (∀ (N : Nat) (evs : List PoolEvent) (s : PoolState),
        poolRun N evs poolInit = some s → s.active + s.seceded ≤ N) := by
  intro hclaim
  have h := hclaim 1 [PoolEvent.start, PoolEvent.secede, PoolEvent.start,
    PoolEvent.secede] ⟨0, 2⟩ (by decide)
  simp at h

/-- C2 amended: only the active count is bounded by N; seceded slots do not
count against the pool reservation and can exceed any bound: for every k a
state with k seceded slots is reachable (while active ≤ N still holds at
every reachable state). -/
theorem seceded_unbounded :
    (∀ (N : Nat) (evs : List PoolEvent) (s : PoolState),
        poolRun N evs poolInit = some s → s.active ≤ N) ∧
    (∀ k : Nat, ∃ evs : List PoolEvent,
        poolRun 1 evs poolInit = some ⟨0, k⟩) := by
  constructor
  · intro N evs s h
    exact poolRun_active_le N evs poolInit s (Nat.zero_le N) h
  · intro k
    refine ⟨(List.replicate k [PoolEvent.start, PoolEvent.secede]).flatten, ?_⟩
    have key : ∀ (m j : Nat),
        poolRun 1 (List.replicate m [PoolEvent.start, PoolEvent.secede]).flatten
          ⟨0, j⟩ = some ⟨0, j + m⟩ := by
      intro m
      induction m with
      | zero => intro j; simp [poolRun]
      | succ n ih =>
          intro j
          simp only [List.replicate_succ, List.flatten_cons]
          rw [show [PoolEvent.start, PoolEvent.secede] ++
                (List.replicate n [PoolEvent.start, PoolEvent.secede]).flatten =
              PoolEvent.start :: PoolEvent.secede ::
                (List.replicate n [PoolEvent.start, PoolEvent.secede]).flatten from rfl]
          simp only [poolRun, poolStep]
          norm_num
          rw [ih (j + 1)]
          have harith : j + 1 + n = j + (n + 1) := by omega
          rw [harith]
    have h := key k 0
    simpa [poolInit] using h

/-- Witness for the amended C2 at concrete inputs. -/
theorem seceded_unbounded_witness :
    (PoolState.mk 0 1).active ≤ 1 ∧
      ∃ evs : List PoolEvent, poolRun 1 evs poolInit = some ⟨0, 4⟩ :=
  ⟨seceded_unbounded.1 1 [.start, .secede] ⟨0, 1⟩ (by decide),
   seceded_unbounded.2 4⟩

/-! ## Priority Task Queue (spec section 4.2)

Modelled from the spec: the queue implementation is not in the repository
source.  A ready task carries a priority and a submission sequence number;
`pop` removes and returns the highest-priority task, ties broken by
submission sequence number ascending (FIFO among equal priority). -/

structure PTask where
  prio : Int
  seq : Nat
  deriving DecidableEq, Repr

/-- The queue's selection order: `a` is dequeued no later than `b` when `a`
has strictly higher priority, or equal priority and a submission sequence
number that is not larger. -/
def better (a b : PTask) : Bool :=
  if b.prio < a.prio then true
  else if a.prio < b.prio then false
  else a.seq ≤ b.seq

/-- The best task among `a :: l` under the queue's selection order. -/
def pickBest (a : PTask) : List PTask → PTask
  | [] => a
  | b :: rest => if better a b then pickBest a rest else pickBest b rest

/-- `pop` removes and returns the highest-priority task (FIFO among equal
priority); `none` on an empty queue (the blocking case). -/
def pop (q : List PTask) : Option (PTask × List PTask) :=
  match q with
  | [] => none
  | a :: rest => some (pickBest a rest, (a :: rest).erase (pickBest a rest))

theorem better_refl (a : PTask) : better a a = true := by
  simp [better]

theorem better_total (a b : PTask) : better a b = true ∨ better b a = true := by
  simp only [better]
  split_ifs <;> simp_all
  omega

theorem better_trans (a b c : PTask) (hab : better a b = true)
    (hbc : better b c = true) : better a c = true := by
  simp only [better] at hab hbc ⊢
  split_ifs at hab hbc ⊢ <;> simp_all <;> omega

theorem pickBest_mem (a : PTask) (l : List PTask) : pickBest a l ∈ a :: l := by
  induction l generalizing a with
  | nil => simp [pickBest]
  | cons b rest ih =>
      simp only [pickBest]
      split
      · have := ih a
        simp only [List.mem_cons] at this ⊢
        tauto
      · have := ih b
        simp only [List.mem_cons] at this ⊢
        tauto

theorem pickBest_better (a : PTask) (l : List PTask) :
    ∀ u ∈ a :: l, better (pickBest a l) u = true := by
  induction l generalizing a with
  | nil =>
      intro u hu
      simp at hu
      subst hu
      exact better_refl u
  | cons b rest ih =>
      intro u hu
      simp only [List.mem_cons] at hu
      simp only [pickBest]
      split
      case isTrue hab =>
        have hall := ih a
        rcases hu with rfl | rfl | hu
        · exact hall u (by simp)
        · exact better_trans _ a u (hall a (by simp)) hab
        · exact hall u (by simp [hu])
      case isFalse hab =>
        have hba : better b a = true := by
          rcases better_total a b with h | h
          · exact absurd h (by simp_all)
          · exact h
        have hall := ih b
        rcases hu with rfl | rfl | hu
        · exact better_trans _ b u (hall b (by simp)) hba
        · exact hall u (by simp)
        · exact hall u (by simp [hu])

/-- C3: `pop` removes and returns a task of maximal priority, breaking ties
by smallest submission sequence number; the returned queue is the old queue
with that one occurrence removed; and `pop` never returns a task that some
queued task strictly out-prioritises. -/
theorem pop_spec (q q' : List PTask) (t : PTask)
    (h : pop q = some (t, q')) :
    t ∈ q ∧ q.Perm (t :: q') ∧ q' = q.erase t ∧
    (∀ u ∈ q, u.prio ≤ t.prio) ∧
    (∀ u ∈ q, u.prio = t.prio → t.seq ≤ u.seq) ∧
    (∀ v ∈ q, (∃ u ∈ q, v.prio < u.prio) → t ≠ v) := by
  match q with
  | [] => cases h
  | a :: rest =>
      simp only [pop, Option.some.injEq, Prod.mk.injEq] at h
      obtain ⟨rfl, rfl⟩ := h
      have hmem : pickBest a rest ∈ a :: rest := pickBest_mem a rest
      have hbet := pickBest_better a rest
      have hkey : ∀ u ∈ a :: rest,
          u.prio ≤ (pickBest a rest).prio ∧
            (u.prio = (pickBest a rest).prio → (pickBest a rest).seq ≤ u.seq) := by
        intro u hu
        have hb := hbet u hu
        simp only [better] at hb
        split_ifs at hb <;> constructor <;> simp_all <;> omega
      refine ⟨hmem, List.perm_cons_erase hmem, rfl, ?_, ?_, ?_⟩
      · intro u hu; exact (hkey u hu).1
      · intro u hu hp; exact (hkey u hu).2 hp
      · intro v hv ⟨u, hu, hvu⟩ heq
        have h1 := (hkey u hu).1
        subst heq
        omega

/-! ## Handle Registry (spec sections 4.1 and 7)

Modelled from the spec: the registry implementation is not in the repository
source.  A handle is created pending, may be marked running by a worker, and
is resolved to finished (with a result) or failed (with a cause) exactly
once; a second resolve or fail, or one on an already-terminal handle, is a
fatal ProtocolViolation.  Failure causes follow the spec's error taxonomy.
Reference counting is omitted: no claim concerns it. -/

inductive Cause where
  | taskFailure (code : Nat)
  | depFailure (orig : Cause)
  | cancellation
  deriving DecidableEq, Repr

inductive HState where
  | pending
  | running
  | finished (v : Int)
  | failed (c : Cause)
  deriving DecidableEq, Repr

inductive EngineError where
  | protocolViolation
  deriving DecidableEq, Repr

abbrev Registry := List (Nat × HState)

def lookupH : Registry → Nat → Option HState
  | [], _ => none
  | (k, st) :: rest, h => if h = k then some st else lookupH rest h

def updateH : Registry → Nat → HState → Registry
  | [], _, _ => []
  | (k, st') :: rest, h, st =>
      if k = h then (k, st) :: updateH rest h st
      else (k, st') :: updateH rest h st

inductive RegOp where
  | create (h : Nat)
  | startRun (h : Nat)
  | resolve (h : Nat) (v : Int)
  | fail (h : Nat) (c : Cause)
  deriving DecidableEq, Repr

/-- One registry operation.  `create` allocates a fresh pending handle;
`startRun` marks a pending handle running; `resolve` stores a result on a
pending or running handle; `fail` stores a cause the same way.  Any other
use — in particular resolve or fail on an already finished or failed
handle — is a fatal `protocolViolation`. -/
def applyOp (r : Registry) : RegOp → Except EngineError Registry
  | .create h =>
      match lookupH r h with
      | none => .ok ((h, .pending) :: r)
      | some _ => .error .protocolViolation
  | .startRun h =>
      match lookupH r h with
      | some .pending => .ok (updateH r h .running)
      | _ => .error .protocolViolation
  | .resolve h v =>
      match lookupH r h with
      | some .pending => .ok (updateH r h (.finished v))
      | some .running => .ok (updateH r h (.finished v))
      | _ => .error .protocolViolation
  | .fail h c =>
      match lookupH r h with
      | some .pending => .ok (updateH r h (.failed c))
      | some .running => .ok (updateH r h (.failed c))
      | _ => .error .protocolViolation

def applyOps (r : Registry) : List RegOp → Except EngineError Registry
  | [] => .ok r
  | op :: rest =>
      match applyOp r op with
      | .error e => .error e
      | .ok r' => applyOps r' rest

/-- The forward direction of the handle state machine on a single state:
pending → running → finished or failed, terminal states fixed. -/
def hstep : HState → HState → Bool
  | .pending, _ => true
  | .running, .pending => false
  | .running, _ => true
  | .finished v, .finished w => v == w
  | .finished _, _ => false
  | .failed c, .failed c' => c == c'
  | .failed _, _ => false

/-- The forward state-machine order lifted to registry entries: an absent
handle may appear, a present one only moves forward. -/
def hForward : Option HState → Option HState → Bool
  | none, _ => true
  | some _, none => false
  | some x, some y => hstep x y

def isTerminal : Option HState → Bool
  | some (.finished _) => true
  | some (.failed _) => true
  | _ => false

theorem hstep_refl (x : HState) : hstep x x = true := by
  cases x <;> simp [hstep]

theorem hForward_refl (a : Option HState) : hForward a a = true := by
  match a with
  | none => rfl
  | some x => simpa [hForward] using hstep_refl x

theorem hForward_trans (a b c : Option HState) (hab : hForward a b = true)
    (hbc : hForward b c = true) : hForward a c = true := by
  match a, b, c with
  | none, _, _ => rfl
  | some x, none, _ => simp [hForward] at hab
  | some x, some y, none => simp [hForward] at hbc
  | some x, some y, some z =>
      simp only [hForward] at hab hbc ⊢
      cases x <;> cases y <;> cases z <;> simp_all [hstep]

theorem hForward_terminal (a b : Option HState) (ht : isTerminal a = true)
    (hab : hForward a b = true) : b = a := by
  match a, b with
  | none, _ => simp [isTerminal] at ht
  | some .pending, _ => simp [isTerminal] at ht
  | some .running, _ => simp [isTerminal] at ht
  | some (.finished v), none => simp [hForward] at hab
  | some (.finished v), some y =>
      simp only [hForward] at hab
      cases y <;> simp_all [hstep]
  | some (.failed c), none => simp [hForward] at hab
  | some (.failed c), some y =>
      simp only [hForward] at hab
      cases y <;> simp_all [hstep]

theorem lookupH_updateH_ne (r : Registry) (h g : Nat) (st : HState)
    (hne : g ≠ h) : lookupH (updateH r h st) g = lookupH r g := by
  induction r with
  | nil => rfl
  | cons p rest ih =>
      obtain ⟨k, st'⟩ := p
      by_cases hk : k = h
      · subst hk
        simp [updateH, lookupH, hne, ih]
      · by_cases hg : g = k
        · simp [updateH, lookupH, hk, hg]
        · simp [updateH, lookupH, hk, hg, ih]

theorem lookupH_updateH_eq (r : Registry) (h : Nat) (st : HState) :
    lookupH (updateH r h st) h = (lookupH r h).map (fun _ => st) := by
  induction r with
  | nil => rfl
  | cons p rest ih =>
      obtain ⟨k, st'⟩ := p
      by_cases hk : k = h
      · subst hk
        simp [updateH, lookupH]
      · have hg : h ≠ k := fun hh => hk hh.symm
        simp [updateH, lookupH, hk, hg, ih]

theorem hForward_update (r : Registry) (hd g : Nat) (st0 st1 : HState)
    (hl : lookupH r hd = some st0) (hs : hstep st0 st1 = true) :
    hForward (lookupH r g) (lookupH (updateH r hd st1) g) = true := by
  by_cases hg : g = hd
  · subst hg
    rw [lookupH_updateH_eq, hl]
    simpa [hForward] using hs
  · rw [lookupH_updateH_ne r hd g _ hg]
    exact hForward_refl _

theorem applyOp_hForward (r r' : Registry) (op : RegOp)
    (h : applyOp r op = .ok r') (g : Nat) :
    hForward (lookupH r g) (lookupH r' g) = true := by
  cases op with
  | create hd =>
      simp only [applyOp] at h
      cases hl : lookupH r hd with
      | none =>
          rw [hl] at h
          cases h
          by_cases hg : g = hd
          · subst hg
            rw [show lookupH ((g, HState.pending) :: r) g = some .pending by
              simp [lookupH], hl]
            rfl
          · rw [show lookupH ((hd, HState.pending) :: r) g = lookupH r g by
              simp [lookupH, hg]]
            exact hForward_refl _
      | some st => rw [hl] at h; cases h
  | startRun hd =>
      simp only [applyOp] at h
      cases hl : lookupH r hd with
      | none => rw [hl] at h; cases h
      | some st =>
          rw [hl] at h
          cases st with
          | pending => cases h; exact hForward_update r hd g _ _ hl rfl
          | running => cases h
          | finished v' => cases h
          | failed c' => cases h
  | resolve hd v =>
      simp only [applyOp] at h
      cases hl : lookupH r hd with
      | none => rw [hl] at h; cases h
      | some st =>
          rw [hl] at h
          cases st with
          | pending => cases h; exact hForward_update r hd g _ _ hl rfl
          | running => cases h; exact hForward_update r hd g _ _ hl rfl
          | finished v' => cases h
          | failed c' => cases h
  | fail hd c =>
      simp only [applyOp] at h
      cases hl : lookupH r hd with
      | none => rw [hl] at h; cases h
      | some st =>
          rw [hl] at h
          cases st with
          | pending => cases h; exact hForward_update r hd g _ _ hl rfl
          | running => cases h; exact hForward_update r hd g _ _ hl rfl
          | finished v' => cases h
          | failed c' => cases h

theorem applyOps_hForward (ops : List RegOp) (r r' : Registry)
    (h : applyOps r ops = .ok r') (g : Nat) :
    hForward (lookupH r g) (lookupH r' g) = true := by
  induction ops generalizing r with
  | nil =>
      simp only [applyOps] at h
      cases h
      exact hForward_refl _
  | cons op rest ih =>
      simp only [applyOps] at h
      cases hop : applyOp r op with
      | error e => rw [hop] at h; cases h
      | ok r₁ =>
          rw [hop] at h
          exact hForward_trans _ _ _ (applyOp_hForward r r₁ op hop g) (ih r₁ h)

/-- C4: over any sequence of registry operations that the engine accepts, a
handle's state only moves forward along
pending → running → (finished or failed); a handle that is finished or
failed keeps exactly that state forever. -/
theorem handle_state_monotonic (ops : List RegOp) (r r' : Registry)
    (h : applyOps r ops = .ok r') :
    (∀ g : Nat, hForward (lookupH r g) (lookupH r' g) = true) ∧
    (∀ (g : Nat) (st : HState), isTerminal (lookupH r g) = true →
        lookupH r g = some st → lookupH r' g = some st) := by
  constructor
  · intro g
    exact applyOps_hForward ops r r' h g
  · intro g st ht hst
    have := hForward_terminal (lookupH r g) (lookupH r' g) ht
      (applyOps_hForward ops r r' h g)
    rw [hst] at this
    exact this

/-- Witness for C4 on a concrete run: create, start, resolve, then an
unrelated create. -/
theorem handle_state_monotonic_witness :
    hForward (lookupH [(7, HState.pending)] 7)
        (lookupH [(9, HState.pending), (7, HState.finished 3)] 7) = true :=
  (handle_state_monotonic [.startRun 7, .resolve 7 3, .create 9]
      [(7, HState.pending)] [(9, HState.pending), (7, HState.finished 3)]
      (by rfl)).1 7

/-- Does this operation resolve or fail the given handle? -/
def resolvesOf (h : Nat) : RegOp → Bool
  | .resolve g _ => g == h
  | .fail g _ => g == h
  | _ => false

/-- How many operations of the sequence resolve or fail the given handle. -/
def countResolves (ops : List RegOp) (h : Nat) : Nat :=
  (ops.filter (resolvesOf h)).length

theorem applyOp_terminal_error (r : Registry) (h : Nat) (op : RegOp)
    (ht : isTerminal (lookupH r h) = true) (hop : resolvesOf h op = true) :
    applyOp r op = .error .protocolViolation := by
  cases op with
  | create g => simp [resolvesOf] at hop
  | startRun g => simp [resolvesOf] at hop
  | resolve g v =>
      simp only [resolvesOf, beq_iff_eq] at hop
      subst g
      simp only [applyOp]
      cases hl : lookupH r h with
      | none => rfl
      | some st =>
          rw [hl] at ht
          cases st <;> simp_all [isTerminal]
  | fail g c =>
      simp only [resolvesOf, beq_iff_eq] at hop
      subst g
      simp only [applyOp]
      cases hl : lookupH r h with
      | none => rfl
      | some st =>
          rw [hl] at ht
          cases st <;> simp_all [isTerminal]

theorem applyOp_resolves_terminal (r r₁ : Registry) (h : Nat) (op : RegOp)
    (hok : applyOp r op = .ok r₁) (hop : resolvesOf h op = true) :
    isTerminal (lookupH r₁ h) = true := by
  cases op with
  | create g => simp [resolvesOf] at hop
  | startRun g => simp [resolvesOf] at hop
  | resolve g v =>
      simp only [resolvesOf, beq_iff_eq] at hop
      subst g
      simp only [applyOp] at hok
      cases hl : lookupH r h with
      | none => rw [hl] at hok; cases hok
      | some st =>
          rw [hl] at hok
          cases st with
          | pending =>
              cases hok
              rw [lookupH_updateH_eq, hl]
              rfl
          | running =>
              cases hok
              rw [lookupH_updateH_eq, hl]
              rfl
          | finished v' => cases hok
          | failed c' => cases hok
  | fail g c =>
      simp only [resolvesOf, beq_iff_eq] at hop
      subst g
      simp only [applyOp] at hok
      cases hl : lookupH r h with
      | none => rw [hl] at hok; cases hok
      | some st =>
          rw [hl] at hok
          cases st with
          | pending =>
              cases hok
              rw [lookupH_updateH_eq, hl]
              rfl
          | running =>
              cases hok
              rw [lookupH_updateH_eq, hl]
              rfl
          | finished v' => cases hok
          | failed c' => cases hok

theorem countResolves_terminal (ops : List RegOp) (r r' : Registry) (h : Nat)
    (ht : isTerminal (lookupH r h) = true) (hr : applyOps r ops = .ok r') :
    countResolves ops h = 0 := by
  induction ops generalizing r with
  | nil => rfl
  | cons op rest ih =>
      simp only [applyOps] at hr
      cases hop : applyOp r op with
      | error e => rw [hop] at hr; cases hr
      | ok r₁ =>
          rw [hop] at hr
          cases hres : resolvesOf h op with
          | true =>
              rw [applyOp_terminal_error r h op ht hres] at hop
              cases hop
          | false =>
              have hterm : lookupH r₁ h = lookupH r h :=
                hForward_terminal _ _ ht (applyOp_hForward r r₁ op hop h)
              have := ih r₁ (by rw [hterm]; exact ht) hr
              simp only [countResolves, List.filter] at this ⊢
              rw [hres]
              exact this

/-- C7: resolve or fail on an already finished or failed handle is a fatal
protocol violation, and along any operation sequence the engine accepts,
each handle is resolved or failed at most once. -/
theorem resolve_fail_at_most_once :
    (∀ (r : Registry) (hd : Nat) (w : Int) (c' : Cause),
        isTerminal (lookupH r hd) = true →
        applyOp r (.resolve hd w) = .error .protocolViolation ∧
        applyOp r (.fail hd c') = .error .protocolViolation) ∧
    (∀ (ops : List RegOp) (r r' : Registry) (hd : Nat),
        applyOps r ops = .ok r' → countResolves ops hd ≤ 1) := by
  constructor
  · intro r hd w c' ht
    exact ⟨applyOp_terminal_error r hd _ ht (by simp [resolvesOf]),
      applyOp_terminal_error r hd _ ht (by simp [resolvesOf])⟩
  · intro ops
    induction ops with
    | nil => intro r r' hd _; simp [countResolves]
    | cons op rest ih =>
        intro r r' hd hr
        simp only [applyOps] at hr
        cases hop : applyOp r op with
        | error e => rw [hop] at hr; cases hr
        | ok r₁ =>
            rw [hop] at hr
            cases hres : resolvesOf hd op with
            | false =>
                have := ih r₁ r' hd hr
                simp only [countResolves, List.filter] at this ⊢
                rw [hres]
                exact this
            | true =>
                have hterm := applyOp_resolves_terminal r r₁ hd op hop hres
                have hzero := countResolves_terminal rest r₁ r' hd hterm hr
                simp only [countResolves, List.filter] at hzero ⊢
                rw [hres]
                simp [hzero]

/-- Witness for C7: double-resolve on a finished handle is rejected, and a
concrete accepted run resolves handle 5 exactly once. -/
theorem resolve_fail_at_most_once_witness :
    applyOp [(5, HState.finished 2)] (.resolve 5 9) =
        .error .protocolViolation ∧
      countResolves [.create 5, .startRun 5, .resolve 5 2] 5 ≤ 1 :=
  ⟨(resolve_fail_at_most_once.1 [(5, HState.finished 2)] 5 9
      (Cause.taskFailure 0) (by rfl)).1,
   resolve_fail_at_most_once.2 [.create 5, .startRun 5, .resolve 5 2] []
      [(5, HState.finished 2)] 5 (by rfl)⟩

/-! ## Dependency gating (spec sections 3, 7 and 8)

Modelled from the spec: the scheduler that admits tasks into the Priority
Task Queue is not in the repository source.  A task depending on handles
H1..Hk stays waiting until all of them are finished, at which point it is
queued; if some Hi fails, the task's own handle transitions directly to a
DependencyFailure carrying the originating cause and the task is never
executed.  Task handles share the task's id; external (leaf) handles are
resolved or failed from outside. -/

inductive TStatus where
  | waiting
  | queued
  | executed
  | depFailed (c : Cause)
  deriving DecidableEq, Repr

abbrev TMap := List (Nat × TStatus)

def lookupT : TMap → Nat → Option TStatus
  | [], _ => none
  | (k, st) :: rest, h => if h = k then some st else lookupT rest h

def updateT : TMap → Nat → TStatus → TMap
  | [], _, _ => []
  | (k, st') :: rest, h, st =>
      if k = h then (k, st) :: updateT rest h st
      else (k, st') :: updateT rest h st

theorem lookupT_updateT_ne (l : TMap) (h g : Nat) (st : TStatus)
    (hne : g ≠ h) : lookupT (updateT l h st) g = lookupT l g := by
  induction l with
  | nil => rfl
  | cons p rest ih =>
      obtain ⟨k, st'⟩ := p
      by_cases hk : k = h
      · subst hk
        simp [updateT, lookupT, hne, ih]
      · by_cases hg : g = k
        · simp [updateT, lookupT, hk, hg]
        · simp [updateT, lookupT, hk, hg, ih]

theorem lookupT_updateT_eq (l : TMap) (h : Nat) (st : TStatus) :
    lookupT (updateT l h st) h = (lookupT l h).map (fun _ => st) := by
  induction l with
  | nil => rfl
  | cons p rest ih =>
      obtain ⟨k, st'⟩ := p
      by_cases hk : k = h
      · subst hk
        simp [updateT, lookupT]
      · have hg : h ≠ k := fun hh => hk hh.symm
        simp [updateT, lookupT, hk, hg, ih]

theorem lookupT_updateT_isSome (l : TMap) (h g : Nat) (st : TStatus) :
    (lookupT (updateT l h st) g).isSome = (lookupT l g).isSome := by
  by_cases hg : g = h
  · subst hg
    rw [lookupT_updateT_eq]
    cases lookupT l g <;> rfl
  · rw [lookupT_updateT_ne l h g st hg]

structure DTask where
  id : Nat
  deps : List Nat
  deriving DecidableEq, Repr

def isFinishedH : Option HState → Bool
  | some (.finished _) => true
  | _ => false

def failedCause : Option HState → Option Cause
  | some (.failed c) => some c
  | _ => none

/-- All handles the task depends on are finished. -/
def allDepsFinished (reg : Registry) (t : DTask) : Bool :=
  t.deps.all (fun d => isFinishedH (lookupH reg d))

/-- The cause of the first failed dependency, if any. -/
def firstFailedDep (reg : Registry) (t : DTask) : Option Cause :=
  t.deps.findSome? (fun d => failedCause (lookupH reg d))

structure SchedState where
  hreg : Registry
  tstat : TMap
  deriving DecidableEq, Repr

/-- One settling pass over a waiting task after some handle resolved: a
waiting task with a failed dependency has its own handle failed with a
DependencyFailure carrying that cause; a waiting task with all dependencies
finished is admitted to the queue; anything else is untouched. -/
def settleTask (s : SchedState) (t : DTask) : SchedState :=
  if lookupT s.tstat t.id = some .waiting then
    match firstFailedDep s.hreg t with
    | some c =>
        ⟨updateH s.hreg t.id (.failed (.depFailure c)),
         updateT s.tstat t.id (.depFailed c)⟩
    | none =>
        if allDepsFinished s.hreg t then ⟨s.hreg, updateT s.tstat t.id .queued⟩
        else s
  else s

def settle (tasks : List DTask) (s : SchedState) : SchedState :=
  tasks.foldl settleTask s

inductive SchedEvent where
  | extResolve (h : Nat) (v : Int)
  | extFail (h : Nat) (c : Nat)
  | runTask (id : Nat) (v : Int)
  deriving DecidableEq, Repr

/-- One scheduler step: an external handle resolves or fails, or a worker
pops a queued task, executes it and resolves its handle; each is followed by
a settling pass over the waiting tasks. -/
def schedStep (tasks : List DTask) (s : SchedState) : SchedEvent → Option SchedState
  | .extResolve h v =>
      if (tasks.all fun t => t.id != h) && (lookupH s.hreg h == some .pending) then
        some (settle tasks ⟨updateH s.hreg h (.finished v), s.tstat⟩)
      else none
  | .extFail h c =>
      if (tasks.all fun t => t.id != h) && (lookupH s.hreg h == some .pending) then
        some (settle tasks ⟨updateH s.hreg h (.failed (.taskFailure c)), s.tstat⟩)
      else none
  | .runTask id v =>
      if lookupT s.tstat id == some .queued then
        some (settle tasks ⟨updateH s.hreg id (.finished v), updateT s.tstat id .executed⟩)
      else none

def schedRun (tasks : List DTask) : List SchedEvent → SchedState → Option SchedState
  | [], s => some s
  | e :: rest, s =>
      match schedStep tasks s e with
      | none => none
      | some s' => schedRun tasks rest s'

/-- All task handles and external handles start pending, all tasks waiting. -/
def schedInit (tasks : List DTask) (ext : List Nat) : SchedState :=
  ⟨ext.map (fun h => (h, HState.pending)) ++ tasks.map (fun t => (t.id, HState.pending)),
   tasks.map (fun t => (t.id, TStatus.waiting))⟩

/-- Coupling between a task's queue status and its handle's state. -/
def statusOk : Option TStatus → Option HState → Bool
  | some .waiting, some .pending => true
  | some .queued, some .pending => true
  | some .executed, some (.finished _) => true
  | some (.depFailed c), some (.failed (.depFailure c')) => decide (c = c')
  | _, _ => false

/-- The scheduler's inductive invariant: the status map covers only task
ids, every task's status is coupled to its handle state, and every queued
task has all dependencies finished. -/
def SchedInv (tasks : List DTask) (s : SchedState) : Prop :=
  (∀ g : Nat, (lookupT s.tstat g).isSome = true → ∃ t ∈ tasks, t.id = g) ∧
  (∀ t ∈ tasks, statusOk (lookupT s.tstat t.id) (lookupH s.hreg t.id) = true) ∧
  (∀ t ∈ tasks, lookupT s.tstat t.id = some .queued → allDepsFinished s.hreg t = true)

theorem statusOk_waiting (o : Option HState)
    (h : statusOk (some .waiting) o = true) : o = some .pending := by
  cases o with
  | none => simp [statusOk] at h
  | some x => cases x <;> simp_all [statusOk]

theorem statusOk_queued (o : Option HState)
    (h : statusOk (some .queued) o = true) : o = some .pending := by
  cases o with
  | none => simp [statusOk] at h
  | some x => cases x <;> simp_all [statusOk]

theorem statusOk_isSome (a : Option TStatus) (o : Option HState)
    (h : statusOk a o = true) : a.isSome = true := by
  cases a with
  | none => cases o with
    | none => simp [statusOk] at h
    | some x => cases x <;> simp [statusOk] at h
  | some st => rfl

theorem allDepsFinished_update (reg : Registry) (t : DTask) (h : Nat)
    (st : HState) (hp : lookupH reg h = some .pending)
    (ha : allDepsFinished reg t = true) :
    allDepsFinished (updateH reg h st) t = true := by
  simp only [allDepsFinished, List.all_eq_true] at ha ⊢
  intro d hd
  have hfin := ha d hd
  by_cases hdh : d = h
  · subst hdh
    rw [hp] at hfin
    simp [isFinishedH] at hfin
  · rw [lookupH_updateH_ne reg h d st hdh]
    exact hfin

theorem task_id_inj (tasks : List DTask)
    (hnd : (tasks.map (fun t => t.id)).Nodup) (a b : DTask)
    (ha : a ∈ tasks) (hb : b ∈ tasks) (hid : a.id = b.id) : a = b := by
  have := List.inj_on_of_nodup_map hnd
  exact this ha hb hid

theorem statusOk_depFailed (a : Option TStatus) (c : Cause)
    (h : statusOk a (some (.failed (.depFailure c))) = true) :
    a = some (.depFailed c) := by
  cases a with
  | none => simp [statusOk] at h
  | some st =>
      cases st with
      | waiting => simp [statusOk] at h
      | queued => simp [statusOk] at h
      | executed => simp [statusOk] at h
      | depFailed c' =>
          simp only [statusOk, decide_eq_true_eq] at h
          rw [h]

theorem settleTask_inv (tasks : List DTask) (t' : DTask)
    (hnd : (tasks.map (fun t => t.id)).Nodup) (ht' : t' ∈ tasks)
    (s : SchedState) (hs : SchedInv tasks s) :
    SchedInv tasks (settleTask s t') := by
  obtain ⟨h0, h2, h1⟩ := hs
  by_cases hW : lookupT s.tstat t'.id = some .waiting
  case neg =>
      rw [settleTask, if_neg hW]
      exact ⟨h0, h2, h1⟩
  case pos =>
      have hpend : lookupH s.hreg t'.id = some .pending := by
        have hso := h2 t' ht'
        rw [hW] at hso
        exact statusOk_waiting _ hso
      rw [settleTask, if_pos hW]
      cases hF : firstFailedDep s.hreg t' with
      | some c =>
          refine ⟨?_, ?_, ?_⟩
          · intro g hg
            dsimp only at hg
            exact h0 g (by rwa [lookupT_updateT_isSome] at hg)
          · intro t ht
            dsimp only
            by_cases hid : t.id = t'.id
            · rw [hid, lookupT_updateT_eq, lookupH_updateH_eq, hW, hpend]
              simp [statusOk]
            · rw [lookupT_updateT_ne _ _ _ _ hid, lookupH_updateH_ne _ _ _ _ hid]
              exact h2 t ht
          · intro t ht hq
            dsimp only at hq ⊢
            by_cases hid : t.id = t'.id
            · rw [hid, lookupT_updateT_eq, hW] at hq
              simp at hq
            · rw [lookupT_updateT_ne _ _ _ _ hid] at hq
              exact allDepsFinished_update _ _ _ _ hpend (h1 t ht hq)
      | none =>
          by_cases hA : allDepsFinished s.hreg t' = true
          · rw [if_pos hA]
            refine ⟨?_, ?_, ?_⟩
            · intro g hg
              dsimp only at hg
              exact h0 g (by rwa [lookupT_updateT_isSome] at hg)
            · intro t ht
              dsimp only
              by_cases hid : t.id = t'.id
              · rw [hid, lookupT_updateT_eq, hW, hpend]
                rfl
              · rw [lookupT_updateT_ne _ _ _ _ hid]
                exact h2 t ht
            · intro t ht hq
              dsimp only at hq ⊢
              by_cases hid : t.id = t'.id
              · have heq : t = t' := task_id_inj tasks hnd t t' ht ht' hid
                subst heq
                exact hA
              · rw [lookupT_updateT_ne _ _ _ _ hid] at hq
                exact h1 t ht hq
          · rw [if_neg hA]
            exact ⟨h0, h2, h1⟩

theorem settle_steps_inv (tasks : List DTask)
    (hnd : (tasks.map (fun t => t.id)).Nodup) (l : List DTask)
    (hl : ∀ x ∈ l, x ∈ tasks) (s : SchedState) (hs : SchedInv tasks s) :
    SchedInv tasks (l.foldl settleTask s) := by
  induction l generalizing s with
  | nil => exact hs
  | cons x rest ih =>
      simp only [List.foldl_cons]
      exact ih (fun y hy => hl y (List.mem_cons_of_mem x hy)) _
        (settleTask_inv tasks x hnd (hl x (List.mem_cons_self x rest)) s hs)

theorem settle_inv (tasks : List DTask)
    (hnd : (tasks.map (fun t => t.id)).Nodup) (s : SchedState)
    (hs : SchedInv tasks s) : SchedInv tasks (settle tasks s) :=
  settle_steps_inv tasks hnd tasks (fun _ hx => hx) s hs

theorem schedStep_inv (tasks : List DTask)
    (hnd : (tasks.map (fun t => t.id)).Nodup) (s s' : SchedState)
    (e : SchedEvent) (h : schedStep tasks s e = some s')
    (hs : SchedInv tasks s) : SchedInv tasks s' := by
  obtain ⟨h0, h2, h1⟩ := hs
  cases e with
  | extResolve hd v =>
      simp only [schedStep] at h
      split at h
      case isFalse => cases h
      case isTrue hc =>
        cases h
        simp only [Bool.and_eq_true, List.all_eq_true, beq_iff_eq] at hc
        obtain ⟨hext, hp⟩ := hc
        apply settle_inv tasks hnd
        refine ⟨h0, ?_, ?_⟩
        · intro t ht
          have hne : t.id ≠ hd := by simpa using hext t ht
          dsimp only
          rw [lookupH_updateH_ne _ _ _ _ hne]
          exact h2 t ht
        · intro t ht hq
          dsimp only at hq ⊢
          exact allDepsFinished_update _ _ _ _ hp (h1 t ht hq)
  | extFail hd c =>
      simp only [schedStep] at h
      split at h
      case isFalse => cases h
      case isTrue hc =>
        cases h
        simp only [Bool.and_eq_true, List.all_eq_true, beq_iff_eq] at hc
        obtain ⟨hext, hp⟩ := hc
        apply settle_inv tasks hnd
        refine ⟨h0, ?_, ?_⟩
        · intro t ht
          have hne : t.id ≠ hd := by simpa using hext t ht
          dsimp only
          rw [lookupH_updateH_ne _ _ _ _ hne]
          exact h2 t ht
        · intro t ht hq
          dsimp only at hq ⊢
          exact allDepsFinished_update _ _ _ _ hp (h1 t ht hq)
  | runTask id v =>
      simp only [schedStep] at h
      split at h
      case isFalse => cases h
      case isTrue hq0 =>
        cases h
        simp only [beq_iff_eq] at hq0
        obtain ⟨t', ht', hid⟩ := h0 id (by rw [hq0]; rfl)
        have hpend : lookupH s.hreg id = some .pending := by
          have hso := h2 t' ht'
          rw [hid, hq0] at hso
          exact statusOk_queued _ hso
        apply settle_inv tasks hnd
        refine ⟨?_, ?_, ?_⟩
        · intro g hg
          dsimp only at hg
          exact h0 g (by rwa [lookupT_updateT_isSome] at hg)
        · intro t ht
          dsimp only
          by_cases hidt : t.id = id
          · rw [hidt, lookupT_updateT_eq, lookupH_updateH_eq, hq0, hpend]
            rfl
          · rw [lookupT_updateT_ne _ _ _ _ hidt, lookupH_updateH_ne _ _ _ _ hidt]
            exact h2 t ht
        · intro t ht hqt
          dsimp only at hqt ⊢
          by_cases hidt : t.id = id
          · rw [hidt, lookupT_updateT_eq, hq0] at hqt
            simp at hqt
          · rw [lookupT_updateT_ne _ _ _ _ hidt] at hqt
            exact allDepsFinished_update _ _ _ _ hpend (h1 t ht hqt)

theorem lookupH_append (a b : Registry) (g : Nat) :
    lookupH (a ++ b) g =
      match lookupH a g with
      | some st => some st
      | none => lookupH b g := by
  induction a with
  | nil => rfl
  | cons p rest ih =>
      obtain ⟨k, st⟩ := p
      by_cases hg : g = k
      · simp [lookupH, hg]
      · simp [lookupH, hg, ih]

theorem lookupH_extmap_notmem (l : List Nat) (g : Nat) (hg : g ∉ l) :
    lookupH (l.map (fun h => (h, HState.pending))) g = none := by
  induction l with
  | nil => rfl
  | cons k rest ih =>
      simp only [List.mem_cons, not_or] at hg
      simp [lookupH, hg.1, ih hg.2]

theorem lookupH_taskmap (tasks : List DTask) (t : DTask) (ht : t ∈ tasks) :
    lookupH (tasks.map (fun t => (t.id, HState.pending))) t.id =
      some .pending := by
  induction tasks with
  | nil => cases ht
  | cons x rest ih =>
      by_cases hx : t.id = x.id
      · simp [lookupH, hx]
      · rcases List.mem_cons.mp ht with rfl | hrest
        · exact absurd rfl hx
        · simp [lookupH, hx, ih hrest]

theorem lookupT_taskmap (tasks : List DTask) (t : DTask) (ht : t ∈ tasks) :
    lookupT (tasks.map (fun t => (t.id, TStatus.waiting))) t.id =
      some .waiting := by
  induction tasks with
  | nil => cases ht
  | cons x rest ih =>
      by_cases hx : t.id = x.id
      · simp [lookupT, hx]
      · rcases List.mem_cons.mp ht with rfl | hrest
        · exact absurd rfl hx
        · simp [lookupT, hx, ih hrest]

theorem lookupT_taskmap_dom (tasks : List DTask) (g : Nat)
    (h : (lookupT (tasks.map (fun t => (t.id, TStatus.waiting))) g).isSome
      = true) : ∃ t ∈ tasks, t.id = g := by
  induction tasks with
  | nil => simp [lookupT] at h
  | cons x rest ih =>
      by_cases hx : g = x.id
      · exact ⟨x, by simp, hx.symm⟩
      · simp only [List.map_cons, lookupT, if_neg hx] at h
        obtain ⟨t, ht, rfl⟩ := ih h
        exact ⟨t, by simp [ht], rfl⟩

theorem schedInit_inv (tasks : List DTask) (ext : List Nat)
    (hnd : (ext ++ tasks.map (fun t => t.id)).Nodup) :
    SchedInv tasks (schedInit tasks ext) := by
  have hdisj : ∀ t ∈ tasks, t.id ∉ ext := by
    intro t ht hmem
    have hd := (List.nodup_append.mp hnd).2.2
    exact hd hmem (List.mem_map_of_mem (fun t => t.id) ht)
  refine ⟨?_, ?_, ?_⟩
  · intro g hg
    exact lookupT_taskmap_dom tasks g hg
  · intro t ht
    show statusOk (lookupT (tasks.map (fun t => (t.id, TStatus.waiting))) t.id)
      (lookupH (ext.map (fun h => (h, HState.pending)) ++
        tasks.map (fun t => (t.id, HState.pending))) t.id) = true
    rw [lookupT_taskmap tasks t ht, lookupH_append,
      lookupH_extmap_notmem ext t.id (hdisj t ht), lookupH_taskmap tasks t ht]
    rfl
  · intro t ht hq
    rw [show (schedInit tasks ext).tstat =
      tasks.map (fun t => (t.id, TStatus.waiting)) from rfl,
      lookupT_taskmap tasks t ht] at hq
    cases hq

theorem schedRun_inv (tasks : List DTask)
    (hnd : (tasks.map (fun t => t.id)).Nodup) (evs : List SchedEvent)
    (s s' : SchedState) (h : schedRun tasks evs s = some s')
    (hs : SchedInv tasks s) : SchedInv tasks s' := by
  induction evs generalizing s with
  | nil =>
      simp only [schedRun, Option.some.injEq] at h
      subst h
      exact hs
  | cons e rest ih =>
      simp only [schedRun] at h
      cases he : schedStep tasks s e with
      | none => rw [he] at h; cases h
      | some s₁ =>
          rw [he] at h
          exact ih s₁ h (schedStep_inv tasks hnd s s₁ e he ⟨hs.1, hs.2.1, hs.2.2⟩)

/-- C5: in every reachable scheduler state, every queued task has all its
dependency handles finished, and a task whose handle carries a
DependencyFailure with cause c is recorded dependency-failed with that same
cause — in particular it was never executed. -/
theorem tasks_gated_on_dependencies (tasks : List DTask) (ext : List Nat)
    (hnd : (ext ++ tasks.map (fun t => t.id)).Nodup)
    (evs : List SchedEvent) (s : SchedState)
    (h : schedRun tasks evs (schedInit tasks ext) = some s) :
    (∀ t ∈ tasks, lookupT s.tstat t.id = some .queued →
        allDepsFinished s.hreg t = true) ∧
    (∀ t ∈ tasks, ∀ c : Cause,
        lookupH s.hreg t.id = some (.failed (.depFailure c)) →
        lookupT s.tstat t.id = some (.depFailed c) ∧
        lookupT s.tstat t.id ≠ some .executed) := by
  have hids : (tasks.map (fun t => t.id)).Nodup :=
    (List.nodup_append.mp hnd).2.1
  have hinv := schedRun_inv tasks hids evs (schedInit tasks ext) s h
    (schedInit_inv tasks ext hnd)
  refine ⟨hinv.2.2, ?_⟩
  intro t ht c hfail
  have hso := hinv.2.1 t ht
  rw [hfail] at hso
  have := statusOk_depFailed _ c hso
  rw [this]
  exact ⟨rfl, by simp⟩

/-! ## Completion Multiplexer, as_completed (spec section 4.4)

Modelled from the spec: the as_completed iterator is not in the repository
source.  A multiplexer watches a growable set of handles; when a watched
handle resolves it is yielded exactly once, in resolution order, and removed
from the watched set; `add` may enlarge the watched set while iteration is
in progress.  A run is a time-ordered sequence of add events and resolution
instants. -/

inductive MuxEvent where
  | add (h : Nat)
  | fire (h : Nat)
  deriving DecidableEq, Repr

structure MuxState where
  watched : List Nat
  yielded : List Nat
  deriving DecidableEq, Repr

/-- `add` enlarges the watched set; the resolution instant of a watched
handle yields it (appends it to the output) and stops watching it; a
resolution of an unwatched handle is not observed. -/
def muxStep (s : MuxState) : MuxEvent → MuxState
  | .add h => ⟨s.watched ++ [h], s.yielded⟩
  | .fire h =>
      if h ∈ s.watched then ⟨s.watched.erase h, s.yielded ++ [h]⟩
      else s

def muxRun (evs : List MuxEvent) (s : MuxState) : MuxState :=
  evs.foldl muxStep s

/-- The handles in resolution order. -/
def fireOrder (evs : List MuxEvent) : List Nat :=
  evs.filterMap (fun e => match e with | .fire h => some h | _ => none)

def isAddOf (h : Nat) : MuxEvent → Bool
  | .add g => g == h
  | _ => false

def countAdds (evs : List MuxEvent) (h : Nat) : Nat :=
  (evs.filter (isAddOf h)).length

theorem muxRun_append (a b : List MuxEvent) (s : MuxState) :
    muxRun (a ++ b) s = muxRun b (muxRun a s) := by
  simp [muxRun, List.foldl_append]

theorem countAdds_append (a b : List MuxEvent) (h : Nat) :
    countAdds (a ++ b) h = countAdds a h + countAdds b h := by
  simp [countAdds, List.filter_append]

theorem muxRun_yield_sublist (evs : List MuxEvent) (s : MuxState) :
    ∃ l : List Nat, (muxRun evs s).yielded = s.yielded ++ l ∧
      l.Sublist (fireOrder evs) := by
  induction evs generalizing s with
  | nil => exact ⟨[], by simp [muxRun], List.nil_sublist _⟩
  | cons e rest ih =>
      cases e with
      | add g =>
          obtain ⟨l, hl, hs⟩ := ih ⟨s.watched ++ [g], s.yielded⟩
          refine ⟨l, ?_, ?_⟩
          · simpa [muxRun, muxStep] using hl
          · simpa [fireOrder] using hs
      | fire g =>
          by_cases hw : g ∈ s.watched
          · obtain ⟨l, hl, hs⟩ := ih ⟨s.watched.erase g, s.yielded ++ [g]⟩
            refine ⟨g :: l, ?_, ?_⟩
            · simp only [muxRun, List.foldl_cons, muxStep, if_pos hw]
              simpa [List.append_assoc] using hl
            · simpa [fireOrder] using List.Sublist.cons₂ g hs
          · obtain ⟨l, hl, hs⟩ := ih s
            refine ⟨l, ?_, ?_⟩
            · simp only [muxRun, List.foldl_cons, muxStep, if_neg hw]
              exact hl
            · refine List.Sublist.trans hs ?_
              simp [fireOrder]

theorem muxRun_count (evs : List MuxEvent) (s : MuxState) (h : Nat) :
    (muxRun evs s).watched.count h + (muxRun evs s).yielded.count h =
      s.watched.count h + s.yielded.count h + countAdds evs h := by
  induction evs generalizing s with
  | nil => simp [muxRun, countAdds]
  | cons e rest ih =>
      cases e with
      | add g =>
          have heq : muxRun (MuxEvent.add g :: rest) s =
              muxRun rest ⟨s.watched ++ [g], s.yielded⟩ := rfl
          rw [heq, ih]
          by_cases hgh : g = h
          · subst hgh
            dsimp only
            simp [countAdds, List.filter, isAddOf, List.count_append]
            try omega
          · have hgb : (g == h) = false := by simp [hgh]
            dsimp only
            simp [countAdds, List.filter, isAddOf, hgb, List.count_append,
              List.count_singleton]
            try omega
      | fire g =>
          by_cases hw : g ∈ s.watched
          · have heq : muxRun (MuxEvent.fire g :: rest) s =
                muxRun rest ⟨s.watched.erase g, s.yielded ++ [g]⟩ := by
              simp [muxRun, muxStep, hw]
            rw [heq, ih]
            dsimp only
            have hcA : countAdds (MuxEvent.fire g :: rest) h = countAdds rest h := by
              simp [countAdds, List.filter, isAddOf]
            rw [hcA]
            by_cases hgh : g = h
            · subst hgh
              have h1 : (s.watched.erase g).count g = s.watched.count g - 1 :=
                List.count_erase_self g s.watched
              have h2 : 0 < s.watched.count g := by
                rw [List.count_pos_iff]
                exact hw
              have h3 : (s.yielded ++ [g]).count g = s.yielded.count g + 1 := by
                simp [List.count_append]
              omega
            · have h1 : (s.watched.erase g).count h = s.watched.count h :=
                List.count_erase_of_ne (fun hh => hgh hh.symm) s.watched
              have h3 : (s.yielded ++ [g]).count h = s.yielded.count h := by
                have : (g == h) = false := by simp [hgh]
                simp [List.count_append, List.count_singleton, this]
              omega
          · have heq : muxRun (MuxEvent.fire g :: rest) s = muxRun rest s := by
              simp [muxRun, muxStep, hw]
            rw [heq, ih]
            have hcA : countAdds (MuxEvent.fire g :: rest) h = countAdds rest h := by
              simp [countAdds, List.filter, isAddOf]
            rw [hcA]

theorem muxRun_count_mono (evs : List MuxEvent) (s : MuxState) (h : Nat)
    (hA : countAdds evs h = 0) :
    (muxRun evs s).watched.count h ≤ s.watched.count h := by
  induction evs generalizing s with
  | nil => simp [muxRun]
  | cons e rest ih =>
      cases e with
      | add g =>
          have hgh : (g == h) = false := by
            cases hb : g == h with
            | false => rfl
            | true =>
                exfalso
                simp [countAdds, List.filter, isAddOf, hb] at hA
          have hrest : countAdds rest h = 0 := by
            simpa [countAdds, List.filter, isAddOf, hgh] using hA
          have heq : muxRun (MuxEvent.add g :: rest) s =
              muxRun rest ⟨s.watched ++ [g], s.yielded⟩ := rfl
          rw [heq]
          have hih := ih ⟨s.watched ++ [g], s.yielded⟩ hrest
          dsimp only at hih
          have hc : (s.watched ++ [g]).count h = s.watched.count h := by
            simp [List.count_append, List.count_singleton, hgh]
          omega
      | fire g =>
          have hrest : countAdds rest h = 0 := by
            simpa [countAdds, List.filter, isAddOf] using hA
          by_cases hw : g ∈ s.watched
          · have heq : muxRun (MuxEvent.fire g :: rest) s =
                muxRun rest ⟨s.watched.erase g, s.yielded ++ [g]⟩ := by
              simp [muxRun, muxStep, hw]
            rw [heq]
            have h1 := ih ⟨s.watched.erase g, s.yielded ++ [g]⟩ hrest
            dsimp only at h1
            have h2 : (s.watched.erase g).count h ≤ s.watched.count h :=
              List.Sublist.count_le (List.erase_sublist g s.watched) h
            omega
          · have heq : muxRun (MuxEvent.fire g :: rest) s = muxRun rest s := by
              simp [muxRun, muxStep, hw]
            rw [heq]
            exact ih s hrest

/-- C6: the yielded sequence of a multiplexer run respects resolution order
(it is a sublist of the handles in resolution order, so a handle is never
yielded before one that resolved strictly earlier); and a handle added
mid-iteration, before its resolution instant, is yielded exactly once. -/
theorem as_completed_order :
    (∀ (evs : List MuxEvent) (ws : List Nat),
        ((muxRun evs ⟨ws, []⟩).yielded).Sublist (fireOrder evs)) ∧
    (∀ (e1 e2 e3 : List MuxEvent) (ws : List Nat) (h : Nat),
        h ∉ ws → countAdds e1 h = 0 → countAdds e2 h = 0 →
        countAdds e3 h = 0 →
        ((muxRun (e1 ++ [MuxEvent.add h] ++ e2 ++ [MuxEvent.fire h] ++ e3)
            ⟨ws, []⟩).yielded).count h = 1) := by
  constructor
  · intro evs ws
    obtain ⟨l, hl, hs⟩ := muxRun_yield_sublist evs ⟨ws, []⟩
    simpa [hl] using hs
  · intro e1 e2 e3 ws h hws hA1 hA2 hA3
    have hws0 : ws.count h = 0 := by
      cases hc : ws.count h with
      | zero => rfl
      | succ n =>
          exfalso
          exact hws (List.count_pos_iff.mp (by omega))
    -- state after e1 ++ [add h] ++ e2
    set s2 := muxRun (e1 ++ [MuxEvent.add h] ++ e2) ⟨ws, []⟩ with hs2
    have hsum2 : s2.watched.count h + s2.yielded.count h = 1 := by
      rw [hs2, muxRun_count]
      dsimp only
      rw [countAdds_append, countAdds_append, hA1, hA2, hws0]
      simp [countAdds, List.filter, isAddOf]
    have hsplit : e1 ++ [MuxEvent.add h] ++ e2 ++ [MuxEvent.fire h] ++ e3 =
        (e1 ++ [MuxEvent.add h] ++ e2) ++ ([MuxEvent.fire h] ++ e3) := by
      simp [List.append_assoc]
    rw [hsplit, muxRun_append, ← hs2, muxRun_append]
    set s3 := muxRun [MuxEvent.fire h] s2 with hs3
    have hkey : s3.watched.count h = 0 ∧ s3.yielded.count h = 1 := by
      rw [hs3]
      by_cases hw : h ∈ s2.watched
      · have heq : muxRun [MuxEvent.fire h] s2 =
            ⟨s2.watched.erase h, s2.yielded ++ [h]⟩ := by
          simp [muxRun, muxStep, hw]
        rw [heq]
        have h1 : (s2.watched.erase h).count h = s2.watched.count h - 1 :=
          List.count_erase_self h s2.watched
        have h2 : 0 < s2.watched.count h := by
          rw [List.count_pos_iff]
          exact hw
        have h3 : (s2.yielded ++ [h]).count h = s2.yielded.count h + 1 := by
          simp [List.count_append]
        constructor
        · simp only [h1]
          omega
        · simp only [h3]
          omega
      · have heq : muxRun [MuxEvent.fire h] s2 = s2 := by
          simp [muxRun, muxStep, hw]
        rw [heq]
        have h2 : s2.watched.count h = 0 := by
          cases hc : s2.watched.count h with
          | zero => rfl
          | succ n =>
              exfalso
              exact hw (List.count_pos_iff.mp (by omega))
        exact ⟨h2, by omega⟩
    have hmono := muxRun_count_mono e3 s3 h hA3
    have hsum3 := muxRun_count e3 s3 h
    rw [hA3] at hsum3
    omega

/-- Witness for C6: handle 9 added after iteration started is yielded
exactly once, in resolution order. -/
theorem as_completed_order_witness :
    countAdds [MuxEvent.fire 1] 9 = 0 ∧
      ((muxRun ([MuxEvent.fire 1] ++ [MuxEvent.add 9] ++ [MuxEvent.fire 2] ++
          [MuxEvent.fire 9] ++ [MuxEvent.fire 3]) ⟨[1, 2, 3], []⟩).yielded).count 9
        = 1 :=
  ⟨by decide,
   as_completed_order.2 [MuxEvent.fire 1] [MuxEvent.fire 2] [MuxEvent.fire 3]
     [1, 2, 3] 9 (by decide) (by decide) (by decide) (by decide)⟩

/-- Witness for C3 at a concrete queue: a later-submitted task of strictly
higher priority is dequeued ahead of earlier lower-priority tasks. -/
theorem pop_spec_witness :
    pop [⟨0, 0⟩, ⟨0, 1⟩, ⟨1, 3⟩, ⟨1, 2⟩] =
        some (⟨1, 2⟩, [⟨0, 0⟩, ⟨0, 1⟩, ⟨1, 3⟩]) ∧
      (⟨1, 2⟩ : PTask) ∈ ([⟨0, 0⟩, ⟨0, 1⟩, ⟨1, 3⟩, ⟨1, 2⟩] : List PTask) :=
  ⟨by decide,
   (pop_spec [⟨0, 0⟩, ⟨0, 1⟩, ⟨1, 3⟩, ⟨1, 2⟩] [⟨0, 0⟩, ⟨0, 1⟩, ⟨1, 3⟩]
      ⟨1, 2⟩ (by decide)).1⟩

/-- Witness for C5 on a concrete run: task 1 depends on external handle 10,
which resolves, so task 1 runs; task 2 depends on external handle 11, which
fails, so task 2 is dependency-failed with that cause and never executed. -/
theorem tasks_gated_on_dependencies_witness :
    lookupT [(1, TStatus.executed),
        (2, TStatus.depFailed (.taskFailure 3))] 2 =
      some (.depFailed (.taskFailure 3)) :=
  ((tasks_gated_on_dependencies [⟨1, [10]⟩, ⟨2, [11]⟩] [10, 11] (by decide)
      [.extResolve 10 5, .runTask 1 7, .extFail 11 3]
      ⟨[(10, .finished 5), (11, .failed (.taskFailure 3)), (1, .finished 7),
        (2, .failed (.depFailure (.taskFailure 3)))],
       [(1, .executed), (2, .depFailed (.taskFailure 3))]⟩ (by rfl)).2
    ⟨2, [11]⟩ (by decide) (.taskFailure 3) (by rfl)).1

/-! ## gather (spec sections 6 and 7)

Modelled from the spec: gather is not in the repository source.  It blocks
(`none`) until all given handles have resolved, then returns the sequence of
results if all succeeded and otherwise fails, propagating the first
encountered cause.  It reads the registry and never writes it — in this
embedding gather is a pure function of the registry, so a successful
resolution it observes is by construction left cached on its handle. -/

def gather (r : Registry) : List Nat → Option (Except Cause (List Int))
  | [] => some (.ok [])
  | h :: hs =>
      match lookupH r h with
      | some (.finished v) =>
          match gather r hs with
          | some (.ok vs) => some (.ok (v :: vs))
          | some (.error c) => some (.error c)
          | none => none
      | some (.failed c) =>
          match gather r hs with
          | some _ => some (.error c)
          | none => none
      | _ => none

/-- The cached result of a successfully resolved handle. -/
def resultOf (r : Registry) (h : Nat) : Option Int :=
  match lookupH r h with
  | some (.finished v) => some v
  | _ => none

/-- C8: gather returns the sequence of results exactly when every handle
finished successfully; a gather that fails propagates the cause of the first
failed handle in the list; and for [h1, h2] with h1 failed and h2 finished,
gather raises h1's cause while h2's result stays retrievable. -/
theorem gather_results_or_first_cause :
    (∀ (r : Registry) (hs : List Nat),
        (∀ h ∈ hs, ∃ v : Int, lookupH r h = some (.finished v)) →
        gather r hs = some (.ok (hs.filterMap (resultOf r)))) ∧
    (∀ (r : Registry) (hs : List Nat) (c : Cause),
        gather r hs = some (.error c) →
        hs.findSome? (fun h => failedCause (lookupH r h)) = some c) ∧
    (∀ (r : Registry) (h1 h2 : Nat) (c : Cause) (v : Int),
        lookupH r h1 = some (.failed c) →
        lookupH r h2 = some (.finished v) →
        gather r [h1, h2] = some (.error c) ∧ resultOf r h2 = some v) := by
  refine ⟨?_, ?_, ?_⟩
  · intro r hs hall
    induction hs with
    | nil => rfl
    | cons h rest ih =>
        obtain ⟨v, hv⟩ := hall h (by simp)
        have hrest := ih (fun g hg => hall g (by simp [hg]))
        simp only [gather, hv, hrest, List.filterMap_cons, resultOf]
        try rw [hv]
  · intro r hs c hg
    induction hs with
    | nil => simp [gather] at hg
    | cons h rest ih =>
        simp only [gather] at hg
        cases hl : lookupH r h with
        | none => rw [hl] at hg; cases hg
        | some st =>
            rw [hl] at hg
            cases st with
            | pending => cases hg
            | running => cases hg
            | finished v =>
                simp only [List.findSome?_cons, failedCause, hl]
                cases hrest : gather r rest with
                | none => rw [hrest] at hg; cases hg
                | some out =>
                    rw [hrest] at hg
                    cases out with
                    | ok vs => cases hg
                    | error c' =>
                        cases hg
                        exact ih hrest
            | failed c' =>
                cases hrest : gather r rest with
                | none => rw [hrest] at hg; cases hg
                | some out =>
                    rw [hrest] at hg
                    cases hg
                    simp [List.findSome?_cons, failedCause, hl]
  · intro r h1 h2 c v h1f h2f
    refine ⟨?_, ?_⟩
    · simp only [gather, h1f, h2f]
      try rfl
    · simp [resultOf, h2f]

/-- Witness for C8 on a concrete registry: handle 1 failed, handle 2
finished with value 4. -/
theorem gather_results_or_first_cause_witness :
    gather [(1, HState.failed (.taskFailure 9)), (2, HState.finished 4)]
        [1, 2] = some (.error (.taskFailure 9)) ∧
      resultOf [(1, HState.failed (.taskFailure 9)), (2, HState.finished 4)] 2
        = some 4 :=
  gather_results_or_first_cause.2.2
    [(1, HState.failed (.taskFailure 9)), (2, HState.finished 4)] 1 2
    (.taskFailure 9) 4 (by rfl) (by rfl)

/-! ## The notebook's own driver code
(src/applications/evolving-workflows.ipynb)

The user functions: parse_file sleeps and returns a random list, so runs are
parameterized by an arbitrary `parse : String → List Int` giving each file's
item list; process_item is x + 1 (cell-3, the sleep dropped as it does not
affect values).  Work items are integers in place of floats. -/

def process_item (x : Int) : Int := x + 1

/-- Cell-4, the sequential double loop: for each filename parse the file,
then process each item in order, appending to results. -/
def sequentialRun (parse : String → List Int) (filenames : List String) :
    List Int :=
  filenames.foldl (fun results fn =>
    (parse fn).foldl (fun acc x => acc ++ [process_item x]) results) []

/-- Cell-8, the as_completed variant: lengths resolve in some order (a
permutation of the file indices); as each length n resolves, the loop
submits getitem then process_item for each of the n indices, at priority 1,
collecting the result futures in submission order; gather returns their
values.  `order` is the resolution order of the length futures. -/
def submittedItems (parse : String → List Int) (filenames : List String)
    (order : List Nat) : List Int :=
  order.foldl (fun futures j =>
    let L := parse (filenames.getD j "")
    (List.range L.length).foldl
      (fun fs i => fs ++ [process_item (L.getD i 0)]) futures) []

/-- Cell-10, the async/await variant, per file: await the file's length,
submit getitem for each index in order, then map process_item over them. -/
def fAsync (parse : String → List Int) (fn : String) : List Int :=
  ((List.range (parse fn).length).map (fun i => (parse fn).getD i 0)).map
    process_item

/-- Cell-10, run_all: asyncio.gather over the filenames in order, the
per-file future lists flattened by sum(_, []) and gathered. -/
def run_all (parse : String → List Int) (filenames : List String) : List Int :=
  (filenames.map (fAsync parse)).foldl (fun acc l => acc ++ l) []

theorem foldl_append_map (α : Type) (l : List α) (g : α → Int)
    (acc : List Int) :
    l.foldl (fun fs x => fs ++ [g x]) acc = acc ++ l.map g := by
  induction l generalizing acc with
  | nil => simp
  | cons x rest ih => simp [ih]

theorem range_map_getD (L : List Int) (d : Int) :
    (List.range L.length).map (fun i => L.getD i d) = L := by
  induction L with
  | nil => rfl
  | cons x rest ih =>
      rw [List.length_cons, List.range_succ_eq_map, List.map_cons,
        List.map_map]
      show x :: (List.range rest.length).map (fun i => rest.getD i d) =
        x :: rest
      exact congrArg (x :: ·) ih

theorem range_map_process (L : List Int) :
    (List.range L.length).map (fun i => process_item (L.getD i 0)) =
      L.map process_item := by
  induction L with
  | nil => rfl
  | cons x rest ih =>
      rw [List.length_cons, List.range_succ_eq_map, List.map_cons,
        List.map_map]
      show process_item x ::
          (List.range rest.length).map (fun i => process_item (rest.getD i 0))
        = process_item x :: rest.map process_item
      exact congrArg (process_item x :: ·) ih

theorem foldl_flatMap (β : Type) (f : List Int → β → List Int)
    (g : β → List Int) (hf : ∀ acc j, f acc j = acc ++ g j) (l : List β)
    (acc : List Int) : l.foldl f acc = acc ++ l.flatMap g := by
  induction l generalizing acc with
  | nil => simp
  | cons j rest ih =>
      rw [List.foldl_cons, hf, ih]
      simp

theorem foldl_append_lists (ll : List (List Int)) (acc : List Int) :
    ll.foldl (fun acc l => acc ++ l) acc = acc ++ ll.flatten := by
  induction ll generalizing acc with
  | nil => simp
  | cons l rest ih => simp [ih]

theorem submittedItems_flatMap (parse : String → List Int)
    (filenames : List String) (order : List Nat) :
    submittedItems parse filenames order =
      order.flatMap
        (fun j => (parse (filenames.getD j "")).map process_item) := by
  have h := foldl_flatMap Nat
    (fun futures j =>
      let L := parse (filenames.getD j "")
      (List.range L.length).foldl
        (fun fs i => fs ++ [process_item (L.getD i 0)]) futures)
    (fun j => (parse (filenames.getD j "")).map process_item)
    (fun acc j => by
      show (List.range (parse (filenames.getD j "")).length).foldl
        (fun fs i => fs ++
          [process_item ((parse (filenames.getD j "")).getD i 0)]) acc =
        acc ++ (parse (filenames.getD j "")).map process_item
      rw [foldl_append_map Nat (List.range (parse (filenames.getD j "")).length)
        (fun i => process_item ((parse (filenames.getD j "")).getD i 0)) acc,
        range_map_process])
    order []
  simpa [submittedItems] using h

theorem sequentialRun_flatMap (parse : String → List Int)
    (filenames : List String) :
    sequentialRun parse filenames =
      filenames.flatMap (fun fn => (parse fn).map process_item) := by
  have h := foldl_flatMap String
    (fun results fn =>
      (parse fn).foldl (fun acc x => acc ++ [process_item x]) results)
    (fun fn => (parse fn).map process_item)
    (fun acc fn => foldl_append_map Int (parse fn) process_item acc)
    filenames []
  simpa [sequentialRun] using h

theorem fAsync_map (parse : String → List Int) (fn : String) :
    fAsync parse fn = (parse fn).map process_item := by
  rw [fAsync, range_map_getD]

theorem run_all_flatMap (parse : String → List Int)
    (filenames : List String) :
    run_all parse filenames =
      filenames.flatMap (fun fn => (parse fn).map process_item) := by
  rw [run_all, foldl_append_lists]
  rw [show (filenames.map (fAsync parse)) =
      filenames.map (fun fn => (parse fn).map process_item) from
    List.map_congr_left (fun fn _ => fAsync_map parse fn)]
  simp [List.flatMap_def]

/-- C10: with identical parse_file outputs per filename, the async/await
variant (cell-10, run via client.sync in cell-12) returns exactly the same
result list, in the same order, as the sequential double loop of cell-4. -/
theorem async_equals_sequential (parse : String → List Int)
    (filenames : List String) :
    run_all parse filenames = sequentialRun parse filenames := by
  rw [run_all_flatMap, sequentialRun_flatMap]

/-- C9: with a deterministic parse stub, mapping parse_file over 3
filenames yields 3 handles; driving as_completed over the length handles in
any resolution order and submitting one getitem/process_item pair per index
submits exactly (sum of the three list lengths) tasks, and gather returns
exactly those results: each file's items in index order, each equal to the
item plus 1. -/
theorem scenarioA_results (parse : String → List Int) (f0 f1 f2 : String)
    (order : List Nat) (hperm : order.Perm [0, 1, 2]) :
    ([f0, f1, f2].map parse).length = 3 ∧
    (submittedItems parse [f0, f1, f2] order).length =
      (parse f0).length + (parse f1).length + (parse f2).length ∧
    submittedItems parse [f0, f1, f2] order =
      order.flatMap
        (fun j => (parse ([f0, f1, f2].getD j "")).map process_item) := by
  refine ⟨by simp, ?_, submittedItems_flatMap parse [f0, f1, f2] order⟩
  rw [submittedItems_flatMap, List.length_flatMap]
  simp only [Function.comp_def]
  have hp := (hperm.map
    (fun j => ((parse ([f0, f1, f2].getD j "")).map process_item).length)).sum_eq
  rw [hp]
  simp
  omega

/-- Concrete deterministic parse stub for the end-to-end witness. -/
def parseStub : String → List Int
  | "f0" => [1, 2]
  | "f1" => [3]
  | _ => [4, 5, 6]

/-- Witness for C9 with a deterministic stub and resolution order 1, 0, 2:
six process_item tasks are submitted and gathered, each result one more
than its item. -/
theorem scenarioA_results_witness :
    ([1, 0, 2] : List Nat).Perm [0, 1, 2] ∧
      (submittedItems parseStub ["f0", "f1", "f2"] [1, 0, 2]).length =
        (parseStub "f0").length + (parseStub "f1").length +
          (parseStub "f2").length :=
  ⟨by decide,
   (scenarioA_results parseStub "f0" "f1" "f2" [1, 0, 2] (by decide)).2.1⟩

end EvolvingWorkflows
